import Mathlib

/-!
Verification of the tcr workspace synchronization and review-state engine.

This file gives a shallow embedding, in Lean, of the pure decision logic of
the tcr repository: the change-tracking `Status` model and its display rule
(status.go), worktree status derivation (`Worktree.refresh` in project.go),
the ordered worktree set and its add/delete operations (project.go), the
origin-URL parser (`parseOrigin` in project.go), the sync-loop steps
`pullMain` and `applyChanges` (server.go), the review pipeline
(`Worktree.review` in project.go), the GitHub comment filter
(`GitHubPRClient.Comments`) and the formatted-review rendering
(`compareFormattedComment`, `FormattedComment.Location`,
`FormattedReview.String` in project_list.go).

External effects (subprocess calls, HTTP requests, directory listings) are
passed in as explicit oracle arguments: an oracle value of `Except.error e`
stands for the Go call returning a non-nil error `e`.  Go's `nil` pointers
are `Option.none`, and a Go nil-pointer dereference is modelled by the
explicit outcome `GoResult.panicked`.  Times (`time.Time`) are modelled as
integers, with `t1.Before(t2)` becoming `t1 < t2`.
-/

namespace Tcr

/-- Artifact record of `openspec status --json` (status.go). -/
structure Artifact where
  id : String := ""
  status : String := ""
  missingDeps : List String := []
deriving Repr, DecidableEq

/-- Normalized snapshot of a worktree's change-tracking state (status.go). -/
structure Status where
  changeName : String := ""
  isComplete : Bool := false
  applyRequires : List String := []
  artifacts : List Artifact := []
deriving Repr, DecidableEq

/-- The Go zero value `Status{}`: every field at its zero value. -/
def zeroStatus : Status := {}

/-- Display rule `Status.String` (status.go): the receiver is a `*Status`,
so the `nil` case is `Option.none`.  The branches are evaluated in the
source's order: nil, empty change name, complete, empty requires, pending. -/
def statusString : Option Status → String
  | none => "No openspec setup"
  | some s =>
    if s.changeName = "" then "Ready For Change"
    else if s.isComplete then "Ready For Review"
    else if s.applyRequires = [] then "Ready For Apply"
    else "Pending – " ++ String.intercalate ", " s.applyRequires

/-- One isolated working copy tied to a branch (project.go).  `status` is
the `*Status` field: `none` is the Go nil pointer. -/
structure Worktree where
  owner : String := ""
  repo : String := ""
  name : String := ""
  path : String := ""
  model : String := ""
  status : Option Status := none
deriving Repr, DecidableEq

instance : Inhabited Worktree := ⟨{}⟩

/-- `Worktree.refresh` (project.go): `listRes` is the outcome of
`listChanges(ctx, w.Path)` and `showChange` the per-change outcome of
`showChange(ctx, w.Path, name)`.  Mirrors the source: a listing error is
ignored (the worktree is returned unchanged, no error); with an empty
listing the status becomes `&Status{}`; otherwise only `changes[0]` is
consulted, a detail error is returned (the status already overwritten with
`&Status{}`), and a detail success stores that change's status verbatim. -/
def Worktree.refresh (w : Worktree) (listRes : Except String (List String))
    (showChange : String → Except String Status) : Worktree × Option String :=
  match listRes with
  | .error _ => (w, none)
  | .ok changes =>
    match changes with
    | [] => ({ w with status := some zeroStatus }, none)
    | c :: _ =>
      match showChange c with
      | .error e => ({ w with status := some zeroStatus }, some e)
      | .ok s => ({ w with status := some s }, none)

/-- One managed repository (project.go). -/
structure Project where
  repo : String := ""
  owner : String := ""
  worktreePath : String := ""
  repoPath : String := ""
  worktrees : List Worktree := []
deriving Repr, DecidableEq

/-- The name order on worktrees: `compareWorktree` (project.go) compares
`a.Name` against `b.Name`, so sorting with it orders by name. -/
def wtLe (a b : Worktree) : Prop := a.name ≤ b.name

instance : DecidableRel wtLe := fun a b => inferInstanceAs (Decidable (a.name ≤ b.name))

instance : IsTotal Worktree wtLe := ⟨fun a b => le_total a.name b.name⟩

instance : IsTrans Worktree wtLe := ⟨fun _ _ _ h₁ h₂ => le_trans h₁ h₂⟩

/-- `slices.SortFunc(p.worktrees, compareWorktree)` (project.go).  On lists
whose names are pairwise distinct every comparison sort agrees, so the
unstable `pdqsort` behind `slices.SortFunc` is modelled by insertion sort
over the same name order. -/
def sortWorktrees (ws : List Worktree) : List Worktree := List.insertionSort wtLe ws

/-- Strictly ascending by name: the ordering invariant of a project's
worktree list. -/
def sortedByName (ws : List Worktree) : Prop :=
  ws.Pairwise (fun a b => a.name < b.name)

instance : DecidablePred sortedByName := fun ws =>
  inferInstanceAs (Decidable (ws.Pairwise (fun a b : Worktree => a.name < b.name)))

/-- Loop body of `Project.Refresh` (project.go): build a worktree per
directory entry, refresh it, and abort with the first refresh error.
`listChanges` and `showChange` are keyed by the worktree path (and, for
`showChange`, the change name). -/
def refreshWorktrees (worktreePath : String)
    (listChanges : String → Except String (List String))
    (showChange : String → String → Except String Status) :
    List String → Except String (List Worktree)
  | [] => .ok []
  | name :: rest =>
    let wt : Worktree := { name := name, path := worktreePath ++ "/" ++ name }
    let r := wt.refresh (listChanges wt.path) (showChange wt.path)
    match r.2 with
    | some e => .error e
    | none =>
      match refreshWorktrees worktreePath listChanges showChange rest with
      | .error e => .error e
      | .ok ws => .ok (r.1 :: ws)

/-- `Project.Refresh` (project.go) after a successful directory read:
rebuild every worktree from the entry list, then sort by name.  Any
per-worktree refresh error propagates and aborts the whole refresh. -/
def Project.Refresh (p : Project) (entries : List String)
    (listChanges : String → Except String (List String))
    (showChange : String → String → Except String Status) :
    Except String Project :=
  match refreshWorktrees p.worktreePath listChanges showChange entries with
  | .error e => .error e
  | .ok ws => .ok { p with worktrees := sortWorktrees ws }

/-- The error component of refreshing the worktree built for one directory
entry, as `Project.Refresh` does it. -/
def refreshEntryErr (worktreePath : String)
    (listChanges : String → Except String (List String))
    (showChange : String → String → Except String Status) (name : String) :
    Option String :=
  let wt : Worktree := { name := name, path := worktreePath ++ "/" ++ name }
  (wt.refresh (listChanges wt.path) (showChange wt.path)).2

/-- The loop of Go's `slices.BinarySearchFunc(x, target, cmp)` with
`cmp = compareWorktree`, i.e. comparison of names: starting from
`i, j = 0, n` it narrows `[i, j)` around the least index whose element is
not below `target`.  `cmp(x[h], target) < 0` is `x[h].name < target`.
The `fuel` argument only drives structural recursion: each iteration
shrinks `j - i`, so any `fuel ≥ j - i` computes the loop's answer. -/
def bsearchLoop (l : List Worktree) (target : String) : Nat → Nat → Nat → Nat
  | 0, i, _ => i
  | fuel + 1, i, j =>
    if i < j then
      let m := (i + j) / 2
      if (l.getD m default).name < target then bsearchLoop l target fuel (m + 1) j
      else bsearchLoop l target fuel i m
    else i

/-- `slices.BinarySearchFunc(x, target, compareWorktree)` (used by
`AddWorktree` and `DeleteWorktree` in project.go): the insertion position
and whether the element at it has exactly the target name. -/
def binarySearch (l : List Worktree) (target : String) : Nat × Bool :=
  let i := bsearchLoop l target l.length 0 l.length
  (i, decide (i < l.length ∧ (l.getD i default).name = target))

/-- `Project.AddWorktree` (project.go) on the worktree list, with
`os.MkdirAll` and `createWorktree` modelled as succeeding.  The freshly
built worktree is refreshed; a refresh error aborts before any insertion.
Then binary search either finds an entry of the same name, which is
replaced in place, or the new worktree is appended and the list re-sorted. -/
def addWorktree (ws : List Worktree) (name : String)
    (listRes : Except String (List String))
    (showChange : String → Except String Status) :
    Except String (List Worktree) :=
  let w0 : Worktree := { name := name, path := name }
  match w0.refresh listRes showChange with
  | (_, some e) => .error e
  | (wt, none) =>
    let sr := binarySearch ws wt.name
    if sr.2 then .ok (ws.set sr.1 wt)
    else .ok (sortWorktrees (ws ++ [wt]))

/-- `Project.DeleteWorktree` (project.go) on the worktree list, with
`deleteWorktree` (the git command) modelled as succeeding: binary search
for the name, and removal of the found index
(`append(ws[:idx], ws[idx+1:]...)`). -/
def deleteWorktreeFromList (ws : List Worktree) (name : String) : List Worktree :=
  let sr := binarySearch ws name
  if sr.2 then ws.eraseIdx sr.1 else ws

/-- One `AddWorktree` or `DeleteWorktree` call, with the oracles the add
case needs to derive the new worktree's status. -/
inductive WtOp where
  | add (name : String) (listRes : Except String (List String))
      (showChange : String → Except String Status)
  | del (name : String)

/-- Apply one operation to the worktree list.  A failing `AddWorktree`
leaves the list unchanged (the source returns before inserting). -/
def applyOp (ws : List Worktree) : WtOp → List Worktree
  | .add name listRes showChange =>
    match addWorktree ws name listRes showChange with
    | .ok ws' => ws'
    | .error _ => ws
  | .del name => deleteWorktreeFromList ws name

/-- Apply a sequence of `AddWorktree`/`DeleteWorktree` operations. -/
def applyOps (ws : List Worktree) (ops : List WtOp) : List Worktree :=
  ops.foldl applyOp ws

/-- Whether a Go call represented as `Except` returned a nil error. -/
def isOkB (r : Except String Unit) : Bool :=
  match r with
  | .ok _ => true
  | .error _ => false

/-- `pullMain` (server.go): pull each project's main checkout in list
order, returning the first pull error; `pull` is the outcome of
`pull(ctx, p.repoPath)`. -/
def pullMain (pull : String → Except String Unit) : List Project → Except String Unit
  | [] => .ok ()
  | p :: ps =>
    match pull p.repoPath with
    | .error e => .error e
    | .ok _ => pullMain pull ps

/-- The projects whose pull `pullMain` actually attempts during one call:
the loop body runs for each project in order until the first error, whose
project is the last one attempted. -/
def pullMainAttempted (pull : String → Except String Unit) : List Project → List Project
  | [] => []
  | p :: ps =>
    match pull p.repoPath with
    | .error _ => [p]
    | .ok _ => p :: pullMainAttempted pull ps

/-- Outcome of a Go function that can also crash: `ok` a normal return,
`thrown e` a returned non-nil error, `panicked` a runtime panic (here
always a nil-pointer dereference). -/
inductive GoResult (α : Type) where
  | ok (val : α)
  | thrown (e : String)
  | panicked
deriving Repr, DecidableEq

/-- Inner loop of `applyChanges` (server.go) over one project's worktrees.
The switch first evaluates `w.Status.IsComplete`: when `w.Status` is nil
that field access dereferences a nil pointer, which in Go panics —
modelled by `GoResult.panicked`.  `ocCommand` is the outcome of
`ocCommand(ctx, w.Path, w.Model, "opsx-apply")` and `push` of
`push(ctx, w.Path)`. -/
def applyChangesWorktrees (ocCommand : String → Except String String)
    (push : String → Except String Unit) : List Worktree → GoResult Unit
  | [] => .ok ()
  | w :: ws =>
    match w.status with
    | none => .panicked
    | some st =>
      if st.isComplete then applyChangesWorktrees ocCommand push ws
      else if st.applyRequires.length = 1 ∧ "tasks" ∈ st.applyRequires then
        match ocCommand w.path with
        | .error e => .thrown e
        | .ok _ =>
          match push w.path with
          | .error e => .thrown e
          | .ok _ => applyChangesWorktrees ocCommand push ws
      else applyChangesWorktrees ocCommand push ws

/-- `applyChanges` (server.go): the nested loop over every worktree of
every project. -/
def applyChanges (ocCommand : String → Except String String)
    (push : String → Except String Unit) : List Project → GoResult Unit
  | [] => .ok ()
  | p :: ps =>
    match applyChangesWorktrees ocCommand push p.worktrees with
    | .panicked => .panicked
    | .thrown e => .thrown e
    | .ok _ => applyChanges ocCommand push ps

/-- The `head.repo` object of a GitHub PR: only `pushed_at` is read. -/
structure BranchRepo where
  pushedAt : Int := 0
deriving Repr, DecidableEq

/-- `Branch` (github client): the PR head's commit sha and repository. -/
structure Branch where
  commitSha : String := ""
  repo : BranchRepo := {}
deriving Repr, DecidableEq

/-- `GitHubPR` metadata. -/
structure GitHubPR where
  title : String := ""
  number : Int := 0
  createdAt : Int := 0
  htmlURL : String := ""
  head : Branch := {}
deriving Repr, DecidableEq

/-- `GitHubComment`: one review comment as returned by the API. -/
structure GitHubComment where
  id : Int := 0
  body : String := ""
  createdAt : Int := 0
  path : String := ""
  line : Int := 0
  position : Int := 0
  commitSha : String := ""
  side : String := ""
deriving Repr, DecidableEq

/-- `FormattedComment` (project_list.go): comment data with metadata for
sorting and formatting.  `ctype` is the Go field `Type`; `createdAt` is
carried over by `ToFormattedComment` but never read by the renderer. -/
structure FormattedComment where
  isOldSide : Bool := false
  file : String := ""
  line : Int := 0
  ctype : String := ""
  content : String := ""
  index : Int := 0
  createdAt : Int := 0
deriving Repr, DecidableEq

/-- `strings.ToUpper` as the character-wise upper-case map (the comment
types are plain ASCII words). -/
def strToUpper (s : String) : String := ⟨s.data.map Char.toUpper⟩

/-- `strings.ToLower` as the character-wise lower-case map. -/
def strToLower (s : String) : String := ⟨s.data.map Char.toLower⟩

/-- `GitHubComment.ToFormattedComment` (github client). -/
def GitHubComment.toFormattedComment (c : GitHubComment) : FormattedComment :=
  { ctype := "suggestion"
    index := c.id
    content := c.body
    file := c.path
    line := c.line
    isOldSide := strToLower c.side = "left"
    createdAt := c.createdAt }

/-- Go's `cmp.Compare` on integers: -1 below, 0 equal, 1 above. -/
def cmpCompare (x y : Int) : Int :=
  if x < y then -1 else if x > y then 1 else 0

/-- `compareFormattedComment` (project_list.go), branch for branch:
longer file names first, then file-level (line 0) before line-level,
then `-cmp.Compare` on the line number, then `cmp.Compare` on the index. -/
def compareFormattedComment (a b : FormattedComment) : Int :=
  if a.file.length > b.file.length then -1
  else if a.file.length < b.file.length then 1
  else if a.line = 0 ∧ b.line ≠ 0 then -1
  else if a.line ≠ 0 ∧ b.line = 0 then 1
  else if a.line ≠ b.line then -(cmpCompare a.line b.line)
  else cmpCompare a.index b.index

/-- The order `slices.SortFunc(review.Comments, compareFormattedComment)`
sorts by: the comparator at most zero. -/
def fcLe (a b : FormattedComment) : Prop := compareFormattedComment a b ≤ 0

instance : DecidableRel fcLe := fun a b =>
  inferInstanceAs (Decidable (compareFormattedComment a b ≤ 0))

instance : IsTotal FormattedComment fcLe := by
  constructor
  have key : ∀ x y : FormattedComment, fcLe x y ↔
      (y.file.length < x.file.length ∨
        (x.file.length = y.file.length ∧
          ((x.line = 0 ∧ y.line ≠ 0) ∨
            ((x.line = 0 ↔ y.line = 0) ∧
              (y.line < x.line ∨ (x.line = y.line ∧ x.index ≤ y.index)))))) := by
    intro x y
    unfold fcLe compareFormattedComment cmpCompare
    split_ifs <;> omega
  intro a b
  rw [key, key]
  omega

instance : IsTrans FormattedComment fcLe := by
  constructor
  have key : ∀ x y : FormattedComment, fcLe x y ↔
      (y.file.length < x.file.length ∨
        (x.file.length = y.file.length ∧
          ((x.line = 0 ∧ y.line ≠ 0) ∨
            ((x.line = 0 ↔ y.line = 0) ∧
              (y.line < x.line ∨ (x.line = y.line ∧ x.index ≤ y.index)))))) := by
    intro x y
    unfold fcLe compareFormattedComment cmpCompare
    split_ifs <;> omega
  intro a b c hab hbc
  rw [key] at hab hbc ⊢
  omega

/-- The sort inside `FormattedReview.String`.  The comparator breaks every
tie down to the comment's distinct `Index`, so the unstable
`slices.SortFunc` is modelled by insertion sort over the same order. -/
def sortFormatted (cs : List FormattedComment) : List FormattedComment :=
  List.insertionSort fcLe cs

/-- `FormattedComment.Location` (project_list.go): file-level comments
render as the bare file, old-side line comments with a `~` marker. -/
def FormattedComment.location (c : FormattedComment) : String :=
  if c.line = 0 then "`" ++ c.file ++ "`"
  else if c.isOldSide then "`" ++ c.file ++ ":~" ++ toString c.line ++ "`"
  else "`" ++ c.file ++ ":" ++ toString c.line ++ "`"

/-- `FormattedComment.CommentType` (project_list.go). -/
def FormattedComment.commentType (c : FormattedComment) : String :=
  "**[" ++ strToUpper c.ctype ++ "]**"

/-- `FormattedReview` (project_list.go). -/
structure FormattedReview where
  commitSha : String := ""
  comments : List FormattedComment := []
deriving Repr, DecidableEq

/-- `FormattedReview.String` (project_list.go): header, short commit hash,
legend, then the comments sorted by `compareFormattedComment` and rendered
as a numbered list. -/
def FormattedReview.string (r : FormattedReview) : String :=
  let shortHash := if r.commitSha.length > 7 then r.commitSha.take 7 else r.commitSha
  let sorted := sortFormatted r.comments
  let items := String.join (sorted.enum.map (fun p =>
    toString (p.1 + 1) ++ ". " ++ p.2.commentType ++ " " ++ p.2.location ++ ":\n"
      ++ p.2.content ++ "\n\n"))
  "I reviewed your code and have the following comments. Please address them.\n\n"
    ++ "Reviewing commit: " ++ shortHash ++ "\n\n"
    ++ "Comment types: ISSUE (problems to fix), SUGGESTION (improvements), NOTE (observations), PRAISE (positive feedback)\n\n"
    ++ items

/-- Filter-and-map loop of `GitHubPRClient.Comments` (github client): a
comment survives when its `commit_id` equals the PR head's sha and its
`created_at` is strictly after the head repository's `pushed_at`. -/
def commentsFilter (pr : GitHubPR) : List GitHubComment → List FormattedComment
  | [] => []
  | c :: rest =>
    if pr.head.commitSha = c.commitSha ∧ pr.head.repo.pushedAt < c.createdAt then
      c.toFormattedComment :: commentsFilter pr rest
    else commentsFilter pr rest

/-- `GitHubPRClient.Comments` (github client) after both fetches
succeeded: the formatted review built from the PR metadata `pr` and the
raw review comments. -/
def ghComments (pr : GitHubPR) (comments : List GitHubComment) : FormattedReview :=
  { commitSha := pr.head.commitSha, comments := commentsFilter pr comments }

/-- `Worktree.review` (project.go) with each external call an oracle:
`fetchBranchPRs` is `client.FetchBranchPRs`, `commentsRes` the outcome of
`client.Comments` (`none`-producing errors give a nil `*FormattedReview`),
`ocPromptRes` the agent prompt keyed by the prompt text, then amend and
push.  The source assigns the `Comments` error to `err` but never checks
it: on a failed fetch `comments` is Go `nil` and `comments.String()`
dereferences a nil pointer — `GoResult.panicked`. -/
def Worktree.review (fetchBranchPRs : Except String (List GitHubPR))
    (commentsRes : Except String FormattedReview)
    (ocPromptRes : String → Except String String)
    (amendRes pushRes : Except String Unit) : GoResult Bool :=
  match fetchBranchPRs with
  | .error e => .thrown e
  | .ok [] => .ok true
  | .ok (_ :: _) =>
    let comments : Option FormattedReview :=
      match commentsRes with
      | .error _ => none
      | .ok r => some r
    match comments with
    | none => .panicked
    | some r =>
      match ocPromptRes r.string with
      | .error e => .thrown e
      | .ok _ =>
        match amendRes with
        | .error e => .thrown e
        | .ok _ =>
          match pushRes with
          | .error e => .thrown e
          | .ok _ => .ok false

/-- Go strings are modelled as character lists for `parseOrigin`; the two
errors of the source, each carrying the offending origin so the message
stays descriptive. -/
inductive ParseErr where
  | unsupportedRemote (origin : List Char)
  | badOwnerRepo (origin : List Char)
deriving Repr, DecidableEq

/-- `strings.HasPrefix(s, pre)` on character lists. -/
def hasPre : List Char → List Char → Bool
  | [], _ => true
  | _ :: _, [] => false
  | a :: as, b :: bs => a == b && hasPre as bs

/-- `strings.CutPrefix(s, pre)` on character lists: the rest after the
marker when it is there. -/
def cutStart (s pre : List Char) : Option (List Char) :=
  if hasPre pre s then some (s.drop pre.length) else none

/-- `strings.HasSuffix(s, suf)` on character lists. -/
def hasSuf (suf s : List Char) : Bool :=
  decide (suf.length ≤ s.length) && (s.drop (s.length - suf.length) == suf)

/-- `strings.TrimSuffix(s, suf)` on character lists. -/
def trimEnd (s suf : List Char) : List Char :=
  if hasSuf suf s then s.take (s.length - suf.length) else s

/-- `strings.Cut(s, "/")` on character lists: the parts before and after
the first `/`, and whether one was found. -/
def cutAt (s : List Char) (c : Char) : List Char × List Char × Bool :=
  if c ∈ s then (s.takeWhile (fun x => x != c), (s.dropWhile (fun x => x != c)).tail, true)
  else (s, [], false)

/-- The character list of `"https://github.com/"`. -/
def httpsMarker : List Char := "https://github.com/".toList

/-- The character list of `"git@github.com:"`. -/
def sshMarker : List Char := "git@github.com:".toList

/-- The character list of `".git"`. -/
def dotGit : List Char := ".git".toList

/-- Tail of `parseOrigin` (project.go) once a marker was cut: trim one
`.git`, split at the first `/`, and reject a missing separator or an empty
owner or repo. -/
def parseTitle (origin title : List Char) : Except ParseErr (List Char × List Char) :=
  if (cutAt (trimEnd title dotGit) '/').2.2 = false
      ∨ (cutAt (trimEnd title dotGit) '/').1 = []
      ∨ (cutAt (trimEnd title dotGit) '/').2.1 = []
  then .error (.badOwnerRepo origin)
  else .ok ((cutAt (trimEnd title dotGit) '/').1, (cutAt (trimEnd title dotGit) '/').2.1)

/-- `parseOrigin` (project.go): accept exactly the
`https://github.com/owner/repo(.git)` and `git@github.com:owner/repo(.git)`
shapes, stripping one trailing `.git`. -/
def parseOrigin (origin : List Char) : Except ParseErr (List Char × List Char) :=
  match cutStart origin httpsMarker with
  | some title => parseTitle origin title
  | none =>
    match cutStart origin sshMarker with
    | some title => parseTitle origin title
    | none => .error (.unsupportedRemote origin)

/-! Concrete oracle fixtures used by counterexamples and witnesses. -/

/-- A `showChange` oracle whose single change is already complete. -/
def showComplete : String → Except String Status :=
  fun c => .ok { changeName := c, isComplete := true }

/-- A `showChange` oracle that always succeeds with the zero status. -/
def showZero : String → Except String Status :=
  fun _ => .ok zeroStatus

/-- A project whose main checkout is at `repos/alpha`. -/
def projAlpha : Project := { repo := "alpha", repoPath := "repos/alpha" }

/-- A project whose main checkout is at `repos/beta`. -/
def projBeta : Project := { repo := "beta", repoPath := "repos/beta" }

/-- A pull oracle for which only `repos/alpha` fails. -/
def pullAlphaFails : String → Except String Unit :=
  fun path => if path = "repos/alpha" then .error "pull alpha: exit status 1" else .ok ()

/-- A `listChanges` oracle listing one change everywhere. -/
def listOneChange : String → Except String (List String) :=
  fun _ => .ok ["add-auth"]

/-- A `showChange` oracle (keyed by path and change) that always fails. -/
def showAlwaysFails : String → String → Except String Status :=
  fun _ _ => .error "unmarshal openspec status: exit status 1"

/-- A project with worktree directory `wt`. -/
def projGamma : Project := { repo := "gamma", worktreePath := "wt" }

/-- An operation sequence exercising insert, replace and delete. -/
def sampleOps : List WtOp :=
  [.add "beta" (.ok []) showZero,
   .add "alpha" (.ok ["add-auth"]) showZero,
   .add "alpha" (.ok []) showZero,
   .del "beta",
   .add "delta" (.error "openspec missing") showZero]

/-- A branch-PR fetch returning one open PR. -/
def onePR : Except String (List GitHubPR) := .ok [{}]

/-- A failed `Comments` fetch, as `client.Comments` returns it. -/
def commentsFetchFails : Except String FormattedReview :=
  .error "network error: connection refused. Please check your internet connection"

/-- An agent prompt oracle that always succeeds. -/
def promptOk : String → Except String String := fun _ => .ok ""

/-- A worktree whose status derivation never ran: `Status` is Go nil. -/
def wtNilStatus : Worktree := { name := "feature-x", path := "wt/feature-x" }

/-- A project holding only `wtNilStatus`. -/
def projNilStatus : Project := { repo := "alpha", worktrees := [wtNilStatus] }

/-- An `ocCommand` oracle that always succeeds. -/
def ocOk : String → Except String String := fun _ => .ok ""

/-- A push oracle that always succeeds. -/
def pushOk : String → Except String Unit := fun _ => .ok ()

/-- A line-1 comment of `a.go`, listed first. -/
def fcLineOne : FormattedComment :=
  { file := "a.go", line := 1, ctype := "issue", content := "first", index := 0 }

/-- A line-2 comment of `a.go`, listed second. -/
def fcLineTwo : FormattedComment :=
  { file := "a.go", line := 2, ctype := "issue", content := "second", index := 1 }

/-- A review holding the two line comments of `a.go`. -/
def reviewTwoLines : FormattedReview :=
  { commitSha := "0123456789", comments := [fcLineOne, fcLineTwo] }

/-! Theorems. -/

/-- C9: the status display mapping is total over the five states, read in
the source's priority order: nil, empty change name, complete, empty
requirements, pending with the comma-joined requirement names. -/
theorem statusString_display_mapping :
    statusString none = "No openspec setup" ∧
    (∀ s : Status, s.changeName = "" → statusString (some s) = "Ready For Change") ∧
    (∀ s : Status, s.changeName ≠ "" → s.isComplete = true →
      statusString (some s) = "Ready For Review") ∧
    (∀ s : Status, s.changeName ≠ "" → s.isComplete = false → s.applyRequires = [] →
      statusString (some s) = "Ready For Apply") ∧
    (∀ s : Status, s.changeName ≠ "" → s.isComplete = false → s.applyRequires ≠ [] →
      statusString (some s) = "Pending – " ++ String.intercalate ", " s.applyRequires) := by
  refine ⟨rfl, ?_, ?_, ?_, ?_⟩
  · intro s h1
    simp [statusString, h1]
  · intro s h1 h2
    simp [statusString, h1, h2]
  · intro s h1 h2 h3
    simp [statusString, h1, h2, h3]
  · intro s h1 h2 h3
    simp [statusString, h1, h2, h3]

/-- C1 counterexample: with a single listed change whose detailed status is
complete, `Worktree.refresh` stores exactly that complete status — a
non-empty change name with `isComplete` — instead of the claimed
empty-change-name status. -/
theorem refresh_takes_first_change_even_if_complete_cex :
    (Worktree.refresh { } (.ok ["add-auth"]) showComplete).1.status
        = some { changeName := "add-auth", isComplete := true } ∧
    ((Worktree.refresh { } (.ok ["add-auth"]) showComplete).1.status.getD zeroStatus).isComplete
        = true ∧
    ((Worktree.refresh { } (.ok ["add-auth"]) showComplete).1.status.getD zeroStatus).changeName
        ≠ "" := by
  decide

/-- C1 (amended): status derivation consults only the first listed change —
the result is unchanged under any change to the rest of the listing or to
the details of later changes — and stores that first change's status
verbatim, whether or not it is complete. -/
theorem refresh_consults_only_head_change (w : Worktree)
    (f g : String → Except String Status) (c : String) (cs cs' : List String)
    (h : f c = g c) :
    w.refresh (.ok (c :: cs)) f = w.refresh (.ok (c :: cs')) g ∧
    (∀ s, f c = .ok s → (w.refresh (.ok (c :: cs)) f).1.status = some s) := by
  constructor
  · simp only [Worktree.refresh, h]
  · intro s hs
    simp [Worktree.refresh, hs]

/-- C1 witness: the amended theorem at a one-change and a two-change
listing sharing the head change. -/
theorem refresh_consults_only_head_change_witness :
    (Worktree.refresh { } (.ok ["add-auth", "other"]) showComplete
        = Worktree.refresh { } (.ok ["add-auth"]) showComplete) ∧
    (∀ s, showComplete "add-auth" = .ok s →
      (Worktree.refresh { } (.ok ["add-auth", "other"]) showComplete).1.status = some s) :=
  refresh_consults_only_head_change { } showComplete showComplete "add-auth" ["other"] [] rfl

/-- C2 counterexample: with two projects of which the first fails to pull,
`pullMain` attempts only the first pull — the second project is never
pulled in that tick — and returns the first error. -/
theorem pullMain_stops_at_first_failure_cex :
    pullMainAttempted pullAlphaFails [projAlpha, projBeta] = [projAlpha] ∧
    projBeta ∉ pullMainAttempted pullAlphaFails [projAlpha, projBeta] ∧
    pullMain pullAlphaFails [projAlpha, projBeta] = .error "pull alpha: exit status 1" :=
  ⟨rfl, by decide, rfl⟩

/-- C2 (amended): in one tick `pullMain` pulls projects in list order up to
and including the first project whose pull fails, skips every later
project, and succeeds exactly when every project's pull succeeds. -/
theorem pullMain_attempts_up_to_first_failure
    (pull : String → Except String Unit) (ps : List Project) :
    pullMainAttempted pull ps
      = ps.takeWhile (fun p => isOkB (pull p.repoPath))
        ++ (ps.dropWhile (fun p => isOkB (pull p.repoPath))).take 1 ∧
    (pullMain pull ps = .ok () ↔ ∀ p ∈ ps, isOkB (pull p.repoPath) = true) := by
  induction ps with
  | nil => simp [pullMainAttempted, pullMain]
  | cons p ps ih =>
    obtain ⟨ih1, ih2⟩ := ih
    cases hp : pull p.repoPath with
    | error e =>
      simp [pullMainAttempted, pullMain, hp, isOkB, List.takeWhile_cons, List.dropWhile_cons]
    | ok u =>
      simp [pullMainAttempted, pullMain, hp, isOkB, List.takeWhile_cons, List.dropWhile_cons,
        ih1, ih2]

/-- C3 counterexample: a worktree whose change listing succeeds but whose
per-change detail call fails makes the project refresh abort with that
error, instead of the claimed best-effort success. -/
theorem project_refresh_aborts_on_showChange_error_cex :
    projGamma.Refresh ["feature-x"] listOneChange showAlwaysFails
      = .error "unmarshal openspec status: exit status 1" := by
  rfl

/-- The loop of `Project.Refresh` succeeds exactly when no entry's
per-worktree refresh reports an error. -/
theorem refreshWorktrees_ok_iff (wp : String)
    (lc : String → Except String (List String))
    (sc : String → String → Except String Status) (entries : List String) :
    (∃ l, refreshWorktrees wp lc sc entries = .ok l) ↔
      ∀ name ∈ entries, refreshEntryErr wp lc sc name = none := by
  induction entries with
  | nil => simp [refreshWorktrees]
  | cons n rest ih =>
    simp only [refreshWorktrees, refreshEntryErr, List.mem_cons]
    cases he : (Worktree.refresh { name := n, path := wp ++ "/" ++ n }
        (lc (wp ++ "/" ++ n)) (sc (wp ++ "/" ++ n))).2 with
    | some e =>
      simp only [he]
      constructor
      · rintro ⟨l, hl⟩
        exact absurd hl (by simp)
      · intro hall
        exact absurd (hall n (Or.inl rfl)) (by simp [refreshEntryErr, he])
    | none =>
      simp only [he]
      constructor
      · rintro ⟨l, hl⟩
        rcases hw : refreshWorktrees wp lc sc rest with e | ws
        · rw [hw] at hl
          exact absurd hl (by simp)
        · rintro m (rfl | hm)
          · simp [refreshEntryErr, he]
          · exact (ih.mp ⟨ws, hw⟩) m hm
      · intro hall
        rcases (ih.mpr (fun m hm => hall m (Or.inr hm))) with ⟨ws, hw⟩
        exact ⟨_, by rw [hw]⟩

/-- C3 (amended): a failure of the change-listing call is swallowed —
`Worktree.refresh` returns success with the worktree unchanged — but a
failure of the per-change detail call is returned as an error, and a
project refresh aborts exactly when some entry's worktree refresh reports
such an error. -/
theorem refresh_listing_error_swallowed_detail_error_aborts
    (w : Worktree) (e : String) (sc : String → Except String Status)
    (lc : String → Except String (List String))
    (scc : String → String → Except String Status)
    (p : Project) (entries : List String) :
    (w.refresh (.error e) sc = (w, none)) ∧
    (∀ c cs s, sc c = .error s → (w.refresh (.ok (c :: cs)) sc).2 = some s) ∧
    ((∃ q, p.Refresh entries lc scc = .ok q) ↔
      ∀ name ∈ entries, refreshEntryErr p.worktreePath lc scc name = none) := by
  refine ⟨rfl, ?_, ?_⟩
  · intro c cs s hs
    simp [Worktree.refresh, hs]
  · rw [← refreshWorktrees_ok_iff]
    unfold Project.Refresh
    constructor
    · rintro ⟨q, hq⟩
      rcases hw : refreshWorktrees p.worktreePath lc scc entries with er | ws
      · rw [hw] at hq
        exact absurd hq (by simp)
      · exact ⟨ws, rfl⟩
    · rintro ⟨l, hl⟩
      rw [hl]
      exact ⟨_, rfl⟩

/-- C6: when the branch has an open PR and the comments fetch fails,
`Worktree.review` does not return the fetch error: the source never checks
it and dereferences the nil formatted review, a panic. -/
theorem review_panics_when_comments_fetch_fails :
    Worktree.review onePR commentsFetchFails promptOk (.ok ()) (.ok ()) = .panicked := by
  rfl

/-- C7: `applyChanges` reads `w.Status.IsComplete` unconditionally, so a
worktree whose status derivation never produced a status (Go nil `Status`)
panics the loop instead of being skipped. -/
theorem applyChanges_panics_on_nil_status :
    applyChanges ocOk pushOk [projNilStatus] = .panicked := by
  rfl

/-- C4: the formatted review built by `Comments` holds exactly the images
of those raw comments whose `commit_id` equals the PR head's sha and whose
`created_at` is strictly after the head repository's `pushed_at`. -/
theorem ghComments_filters_head_sha_and_pushed_at (pr : GitHubPR)
    (cs : List GitHubComment) (fc : FormattedComment) :
    fc ∈ (ghComments pr cs).comments ↔
      ∃ c, c ∈ cs ∧ c.commitSha = pr.head.commitSha ∧
        pr.head.repo.pushedAt < c.createdAt ∧ fc = c.toFormattedComment := by
  show fc ∈ commentsFilter pr cs ↔ _
  induction cs with
  | nil => simp [commentsFilter]
  | cons c rest ih =>
    simp only [commentsFilter]
    split_ifs with h
    · simp only [List.mem_cons, ih]
      constructor
      · rintro (rfl | ⟨d, hd, h1, h2, rfl⟩)
        · exact ⟨c, Or.inl rfl, h.1.symm, h.2, rfl⟩
        · exact ⟨d, Or.inr hd, h1, h2, rfl⟩
      · rintro ⟨d, (rfl | hd'), h1, h2, rfl⟩
        · exact Or.inl rfl
        · exact Or.inr ⟨d, hd', h1, h2, rfl⟩
    · rw [ih]
      constructor
      · rintro ⟨d, hd, h1, h2, rfl⟩
        exact ⟨d, List.mem_cons_of_mem c hd, h1, h2, rfl⟩
      · rintro ⟨d, hd, h1, h2, rfl⟩
        rcases List.mem_cons.mp hd with rfl | hd'
        · exact absurd ⟨h1.symm, h2⟩ h
        · exact ⟨d, hd', h1, h2, rfl⟩

/-- Arithmetic reading of the comparator order `fcLe`: longer files first,
then file-level before line-level, then lines descending, then the index. -/
theorem fcLe_iff (x y : FormattedComment) :
    fcLe x y ↔
      (y.file.length < x.file.length ∨
        (x.file.length = y.file.length ∧
          ((x.line = 0 ∧ y.line ≠ 0) ∨
            ((x.line = 0 ↔ y.line = 0) ∧
              (y.line < x.line ∨ (x.line = y.line ∧ x.index ≤ y.index)))))) := by
  unfold fcLe compareFormattedComment cmpCompare
  split_ifs <;> omega

set_option maxRecDepth 20000 in
/-- C8 counterexample: two same-file line comments listed with lines 1 then
2 are rendered with line 2 first — `compareFormattedComment` orders
line-level comments by descending, not ascending, line number. -/
theorem formatted_line_order_descending_cex :
    sortFormatted [fcLineOne, fcLineTwo] = [fcLineTwo, fcLineOne] ∧
    (sortFormatted [fcLineOne, fcLineTwo]).map FormattedComment.line = [2, 1] ∧
    FormattedReview.string reviewTwoLines
      = "I reviewed your code and have the following comments. Please address them.\n\n"
        ++ "Reviewing commit: 0123456\n\n"
        ++ "Comment types: ISSUE (problems to fix), SUGGESTION (improvements), NOTE (observations), PRAISE (positive feedback)\n\n"
        ++ "1. **[ISSUE]** `a.go:2`:\nsecond\n\n2. **[ISSUE]** `a.go:1`:\nfirst\n\n" := by
  refine ⟨by decide, by decide, by decide⟩

/-- C8 (amended): in the rendered order, within one file the file-level
comments come first, line-level comments are ordered by descending line
number with ties kept in index order, and the location strings carry the
`~` marker exactly for old-side line comments. -/
theorem formatted_review_order_and_markers (r : FormattedReview) :
    (sortFormatted r.comments).Pairwise (fun a b =>
      a.file = b.file →
        ((b.line = 0 → a.line = 0) ∧
          (a.line ≠ 0 → b.line ≠ 0 → a.line ≠ b.line → b.line < a.line) ∧
          (a.line = b.line → a.index ≤ b.index))) ∧
    (∀ c : FormattedComment, c.line = 0 → c.location = "`" ++ c.file ++ "`") ∧
    (∀ c : FormattedComment, c.line ≠ 0 → c.isOldSide = true →
      c.location = "`" ++ c.file ++ ":~" ++ toString c.line ++ "`") ∧
    (∀ c : FormattedComment, c.line ≠ 0 → c.isOldSide = false →
      c.location = "`" ++ c.file ++ ":" ++ toString c.line ++ "`") := by
  refine ⟨?_, ?_, ?_, ?_⟩
  · refine (List.sorted_insertionSort fcLe r.comments).imp ?_
    intro a b hab hf
    have hlen : a.file.length = b.file.length := by rw [hf]
    rw [fcLe_iff] at hab
    omega
  · intro c h
    simp [FormattedComment.location, h]
  · intro c h1 h2
    simp [FormattedComment.location, h1, h2]
  · intro c h1 h2
    simp [FormattedComment.location, h1, h2]

/-- A marker is a prefix of itself followed by anything. -/
theorem hasPre_append (pre rest : List Char) : hasPre pre (pre ++ rest) = true := by
  induction pre with
  | nil => rfl
  | cons a as ih => simp [hasPre, ih]

/-- Differing head characters refute a prefix. -/
theorem hasPre_false_of_head_ne {a b : Char} (h : a ≠ b) (as bs : List Char) :
    hasPre (a :: as) (b :: bs) = false := by
  simp [hasPre, h]

/-- The https marker never matches an ssh-style origin. -/
theorem httpsMarker_not_ssh (rest : List Char) :
    hasPre httpsMarker (sshMarker ++ rest) = false := by
  have e1 : httpsMarker = 'h' :: "ttps://github.com/".toList := rfl
  have e2 : sshMarker ++ rest = 'g' :: ("it@github.com:".toList ++ rest) := rfl
  rw [e1, e2]
  exact hasPre_false_of_head_ne (by decide) _ _

/-- `CutPrefix` on a string that does start with the marker. -/
theorem cutStart_append (pre rest : List Char) :
    cutStart (pre ++ rest) pre = some rest := by
  simp [cutStart, hasPre_append, List.drop_left]

/-- `TrimSuffix` strips exactly one trailing copy of the suffix. -/
theorem trimEnd_append (x suf : List Char) : trimEnd (x ++ suf) suf = x := by
  have hlen : (x ++ suf).length - suf.length = x.length := by simp
  have hdrop : (x ++ suf).drop ((x ++ suf).length - suf.length) = suf := by
    rw [hlen, List.drop_left]
  have htake : (x ++ suf).take ((x ++ suf).length - suf.length) = x := by
    rw [hlen, List.take_left]
  simp [trimEnd, hasSuf, hdrop, htake]

/-- Taking while distinct from a clean part stops at the separator. -/
theorem takeWhile_ne_of_not_mem (xs ys : List Char) (c : Char) (h : c ∉ xs) :
    (xs ++ c :: ys).takeWhile (fun x => x != c) = xs := by
  induction xs with
  | nil => simp [List.takeWhile_cons]
  | cons a as ih =>
    have ha : a ≠ c := by
      intro e
      exact h (by rw [← e]; exact List.mem_cons_self a as)
    have has : c ∉ as := fun hc => h (List.mem_cons_of_mem a hc)
    simp [List.cons_append, List.takeWhile_cons, ha, ih has]

/-- Dropping while distinct from a clean part lands on the separator. -/
theorem dropWhile_ne_of_not_mem (xs ys : List Char) (c : Char) (h : c ∉ xs) :
    (xs ++ c :: ys).dropWhile (fun x => x != c) = c :: ys := by
  induction xs with
  | nil => simp [List.dropWhile_cons]
  | cons a as ih =>
    have ha : a ≠ c := by
      intro e
      exact h (by rw [← e]; exact List.mem_cons_self a as)
    have has : c ∉ as := fun hc => h (List.mem_cons_of_mem a hc)
    simp [List.cons_append, List.dropWhile_cons, ha, ih has]

/-- `Cut` at the first separator, when the part before it is clean. -/
theorem cutAt_append (xs ys : List Char) (c : Char) (h : c ∉ xs) :
    cutAt (xs ++ c :: ys) c = (xs, ys, true) := by
  have hmem : c ∈ xs ++ c :: ys := List.mem_append_right xs (List.mem_cons_self c ys)
  simp [cutAt, hmem, takeWhile_ne_of_not_mem xs ys c h, dropWhile_ne_of_not_mem xs ys c h]

/-- A `parseTitle` success always carries a non-empty owner and repo. -/
theorem parseTitle_ok (origin title o r : List Char)
    (h : parseTitle origin title = .ok (o, r)) : o ≠ [] ∧ r ≠ [] := by
  unfold parseTitle at h
  split_ifs at h with hc
  push_neg at hc
  simp only [Except.ok.injEq, Prod.mk.injEq] at h
  obtain ⟨ho, hr⟩ := h
  exact ⟨ho ▸ hc.2.1, hr ▸ hc.2.2⟩

/-- C10 counterexample: an ssh-style origin at a non-github host, of
exactly the claimed `git@host:owner/repo.git` shape, is rejected by
`parseOrigin` instead of yielding `(owner, repo)`. -/
theorem parseOrigin_rejects_non_github_host_cex :
    parseOrigin "git@gitlab.com:o/r.git".toList
      = .error (.unsupportedRemote "git@gitlab.com:o/r.git".toList) := by
  rfl

/-- C10 (amended): for the github.com host, both supported origin shapes
parse to exactly `(owner, repo)` with one trailing `.git` stripped; any
successful parse has non-empty owner and repo; and an origin matching
neither marker fails with the descriptive unsupported-remote error. -/
theorem parseOrigin_github_forms (owner repo : List Char)
    (h1 : owner ≠ []) (h2 : repo ≠ []) (h3 : '/' ∉ owner) :
    parseOrigin (sshMarker ++ owner ++ '/' :: repo ++ dotGit) = .ok (owner, repo) ∧
    parseOrigin (httpsMarker ++ owner ++ '/' :: repo ++ dotGit) = .ok (owner, repo) ∧
    (∀ origin o r, parseOrigin origin = .ok (o, r) → o ≠ [] ∧ r ≠ []) ∧
    (∀ origin, hasPre httpsMarker origin = false → hasPre sshMarker origin = false →
      parseOrigin origin = .error (.unsupportedRemote origin)) := by
  have htitle : ∀ origin : List Char,
      parseTitle origin ((owner ++ '/' :: repo) ++ dotGit) = .ok (owner, repo) := by
    intro origin
    unfold parseTitle
    rw [trimEnd_append (owner ++ '/' :: repo) dotGit, cutAt_append owner repo '/' h3]
    simp [h1, h2]
  refine ⟨?_, ?_, ?_, ?_⟩
  · have eassoc : sshMarker ++ owner ++ '/' :: repo ++ dotGit
        = sshMarker ++ ((owner ++ '/' :: repo) ++ dotGit) := by simp
    have hnone : cutStart (sshMarker ++ ((owner ++ '/' :: repo) ++ dotGit)) httpsMarker
        = none := by
      simp [cutStart, httpsMarker_not_ssh]
    rw [eassoc]
    simp only [parseOrigin, hnone, cutStart_append]
    rw [← eassoc]
    exact htitle _
  · have eassoc : httpsMarker ++ owner ++ '/' :: repo ++ dotGit
        = httpsMarker ++ ((owner ++ '/' :: repo) ++ dotGit) := by simp
    rw [eassoc]
    simp only [parseOrigin, cutStart_append]
    rw [← eassoc]
    exact htitle _
  · intro origin o r h
    unfold parseOrigin at h
    rcases hc1 : cutStart origin httpsMarker with _ | t1
    · rw [hc1] at h
      rcases hc2 : cutStart origin sshMarker with _ | t2
      · rw [hc2] at h
        exact absurd h (by simp)
      · rw [hc2] at h
        exact parseTitle_ok origin t2 o r h
    · rw [hc1] at h
      exact parseTitle_ok origin t1 o r h
  · intro origin hh hs
    simp [parseOrigin, cutStart, hh, hs]

/-- C10 witness: the amended theorem at owner `o` and repo `r`. -/
theorem parseOrigin_github_forms_witness :
    parseOrigin (sshMarker ++ ['o'] ++ '/' :: ['r'] ++ dotGit) = .ok (['o'], ['r']) ∧
    parseOrigin (httpsMarker ++ ['o'] ++ '/' :: ['r'] ++ dotGit) = .ok (['o'], ['r']) ∧
    (∀ origin o r, parseOrigin origin = .ok (o, r) → o ≠ [] ∧ r ≠ []) ∧
    (∀ origin, hasPre httpsMarker origin = false → hasPre sshMarker origin = false →
      parseOrigin origin = .error (.unsupportedRemote origin)) :=
  parseOrigin_github_forms ['o'] ['r'] (by decide) (by decide) (by decide)

/-- Names read through `getD` respect the sorted order. -/
theorem sorted_getD_le (l : List Worktree) (hsort : sortedByName l)
    (k1 k2 : Nat) (h12 : k1 ≤ k2) (h2 : k2 < l.length) :
    (l.getD k1 default).name ≤ (l.getD k2 default).name := by
  rcases lt_or_eq_of_le h12 with hlt | heq
  · have h1 : k1 < l.length := lt_trans hlt h2
    rw [List.getD_eq_getElem l default h1, List.getD_eq_getElem l default h2]
    exact le_of_lt ((List.pairwise_iff_getElem.mp hsort) k1 k2 h1 h2 hlt)
  · rw [heq]

/-- Invariant of the binary-search loop: a window whose lower outside is
strictly below the target and whose upper outside is not, narrows to the
boundary point between the two regions. -/
theorem bsearchLoop_spec (l : List Worktree) (target : String)
    (hsort : sortedByName l) :
    ∀ fuel i j, i ≤ j → j ≤ l.length → j - i ≤ fuel →
      (∀ k, k < i → (l.getD k default).name < target) →
      (∀ k, j ≤ k → k < l.length → ¬ (l.getD k default).name < target) →
      i ≤ bsearchLoop l target fuel i j ∧ bsearchLoop l target fuel i j ≤ j ∧
        (∀ k, k < bsearchLoop l target fuel i j → (l.getD k default).name < target) ∧
        (∀ k, bsearchLoop l target fuel i j ≤ k → k < l.length →
          ¬ (l.getD k default).name < target) := by
  intro fuel
  induction fuel with
  | zero =>
    intro i j hij hjl hfuel hlow hhigh
    have hieq : i = j := by omega
    subst hieq
    simp only [bsearchLoop]
    exact ⟨le_refl i, le_refl i, hlow, hhigh⟩
  | succ fuel ih =>
    intro i j hij hjl hfuel hlow hhigh
    by_cases hlt : i < j
    · have hm1 : i ≤ (i + j) / 2 := by omega
      have hm2 : (i + j) / 2 < j := by omega
      by_cases hcmp : (l.getD ((i + j) / 2) default).name < target
      · have hstep : bsearchLoop l target (fuel + 1) i j
            = bsearchLoop l target fuel ((i + j) / 2 + 1) j := by
          simp only [bsearchLoop, if_pos hlt, if_pos hcmp]
        rw [hstep]
        have hlow' : ∀ k, k < (i + j) / 2 + 1 → (l.getD k default).name < target := by
          intro k hk
          exact lt_of_le_of_lt
            (sorted_getD_le l hsort k ((i + j) / 2) (by omega) (by omega)) hcmp
        have res := ih ((i + j) / 2 + 1) j (by omega) hjl (by omega) hlow' hhigh
        exact ⟨le_trans (by omega) res.1, res.2.1, res.2.2.1, res.2.2.2⟩
      · have hstep : bsearchLoop l target (fuel + 1) i j
            = bsearchLoop l target fuel i ((i + j) / 2) := by
          simp only [bsearchLoop, if_pos hlt, if_neg hcmp]
        rw [hstep]
        have hhigh' : ∀ k, (i + j) / 2 ≤ k → k < l.length →
            ¬ (l.getD k default).name < target := by
          intro k hk hkl hcon
          exact hcmp (lt_of_le_of_lt (sorted_getD_le l hsort ((i + j) / 2) k hk hkl) hcon)
        have res := ih i ((i + j) / 2) (by omega) (by omega) (by omega) hlow hhigh'
        exact ⟨res.1, le_trans res.2.1 (le_of_lt hm2), res.2.2.1, res.2.2.2⟩
    · have hieq : i = j := by omega
      subst hieq
      simp only [bsearchLoop, if_neg hlt]
      exact ⟨le_refl i, le_refl i, hlow, hhigh⟩

/-- On a sorted list, binary search reports found — at an index bearing
the target name — whenever some element bears it. -/
theorem binarySearch_found (l : List Worktree) (target : String)
    (hsort : sortedByName l) (w : Worktree) (hw : w ∈ l) (hname : w.name = target) :
    (binarySearch l target).2 = true ∧
      (l.getD (binarySearch l target).1 default).name = target := by
  obtain ⟨k, hk, hkw⟩ := List.mem_iff_getElem.mp hw
  have res := bsearchLoop_spec l target hsort l.length 0 l.length
    (by omega) (le_refl _) (by omega)
    (fun k hk => absurd hk (Nat.not_lt_zero k))
    (fun k h1 h2 => absurd (lt_of_lt_of_le h2 h1) (lt_irrefl k))
  have hr1 : (binarySearch l target).1 = bsearchLoop l target l.length 0 l.length := rfl
  have hkname : (l.getD k default).name = target := by
    rw [List.getD_eq_getElem l default hk, hkw, hname]
  rw [hr1]
  have hrk : bsearchLoop l target l.length 0 l.length ≤ k := by
    by_contra hc
    push_neg at hc
    have := res.2.2.1 k hc
    rw [hkname] at this
    exact lt_irrefl target this
  have hrlen : bsearchLoop l target l.length 0 l.length < l.length := lt_of_le_of_lt hrk hk
  have hge := res.2.2.2 (bsearchLoop l target l.length 0 l.length) (le_refl _) hrlen
  have hle : (l.getD (bsearchLoop l target l.length 0 l.length) default).name ≤ target := by
    calc (l.getD (bsearchLoop l target l.length 0 l.length) default).name
        ≤ (l.getD k default).name := sorted_getD_le l hsort _ k hrk hk
      _ = target := hkname
  have heq := le_antisymm hle (not_lt.mp hge)
  refine ⟨?_, heq⟩
  show decide (bsearchLoop l target l.length 0 l.length < l.length ∧
    (l.getD (bsearchLoop l target l.length 0 l.length) default).name = target) = true
  exact decide_eq_true ⟨hrlen, heq⟩

/-- Replacing an element by one of the same name keeps the list strictly
sorted by name. -/
theorem sortedByName_set (l : List Worktree) (i : Nat) (w : Worktree)
    (hsort : sortedByName l) (hi : i < l.length)
    (hname : (l.getD i default).name = w.name) : sortedByName (l.set i w) := by
  have hni : ∀ hii : i < l.length, (l.getD i default).name = w.name := fun _ => hname
  simp only [sortedByName, List.pairwise_iff_getElem] at hsort ⊢
  intro k1 k2 h1 h2 h12
  rw [List.length_set] at h1 h2
  simp only [List.getElem_set]
  by_cases e1 : i = k1 <;> by_cases e2 : i = k2
  · omega
  · simp only [if_pos e1, if_neg e2]
    have hw : l[i].name = w.name := by
      rw [← List.getD_eq_getElem l default hi]
      exact hname
    rw [← hw]
    subst e1
    exact hsort i k2 h1 h2 h12
  · simp only [if_neg e1, if_pos e2]
    have hw : l[i].name = w.name := by
      rw [← List.getD_eq_getElem l default hi]
      exact hname
    rw [← hw]
    subst e2
    exact hsort k1 i h1 h2 h12
  · simp only [if_neg e1, if_neg e2]
    exact hsort k1 k2 h1 h2 h12

/-- Sorting a list whose names are pairwise distinct yields a strictly
name-ascending list. -/
theorem sortedByName_sortWorktrees (l : List Worktree)
    (hnd : (l.map (fun w => w.name)).Nodup) : sortedByName (sortWorktrees l) := by
  have hperm : List.Perm (sortWorktrees l) l := List.perm_insertionSort wtLe l
  have hnd2 : ((sortWorktrees l).map (fun w => w.name)).Nodup :=
    ((hperm.map (fun w => w.name)).symm).nodup hnd
  have hsorted := List.sorted_insertionSort wtLe l
  simp only [sortedByName, List.pairwise_iff_getElem]
  intro k1 k2 h1 h2 h12
  have hle : wtLe (sortWorktrees l)[k1] (sortWorktrees l)[k2] :=
    (List.pairwise_iff_getElem.mp hsorted) k1 k2 h1 h2 h12
  have hle' : ((sortWorktrees l)[k1]).name ≤ ((sortWorktrees l)[k2]).name := hle
  have hne : ((sortWorktrees l)[k1]).name ≠ ((sortWorktrees l)[k2]).name := by
    intro heq
    have hp := (List.pairwise_iff_getElem.mp hnd2) k1 k2
      (by simpa using h1) (by simpa using h2) h12
    rw [List.getElem_map, List.getElem_map] at hp
    exact hp heq
  exact lt_of_le_of_ne hle' hne

/-- The names of a strictly name-ascending list are pairwise distinct. -/
theorem nodup_names_of_sorted (l : List Worktree) (h : sortedByName l) :
    (l.map (fun w => w.name)).Nodup := by
  simp only [sortedByName] at h
  have hp : (l.map (fun w => w.name)).Pairwise (· < ·) :=
    List.Pairwise.map (fun w : Worktree => w.name) (fun _ _ hab => hab) h
  exact hp.imp (fun hab => ne_of_lt hab)

/-- One `AddWorktree` or `DeleteWorktree` call keeps the worktree list
strictly ascending by name. -/
theorem sortedByName_applyOp (ws : List Worktree) (op : WtOp)
    (h : sortedByName ws) : sortedByName (applyOp ws op) := by
  cases op with
  | add name lr sc =>
    rcases hr : Worktree.refresh { name := name, path := name } lr sc with ⟨wt, oe⟩
    cases oe with
    | some e =>
      simp only [applyOp, addWorktree, hr]
      exact h
    | none =>
      by_cases hf : (binarySearch ws wt.name).2 = true
      · simp only [applyOp, addWorktree, hr, hf, if_true]
        have hprop : (binarySearch ws wt.name).1 < ws.length ∧
            (ws.getD (binarySearch ws wt.name).1 default).name = wt.name :=
          of_decide_eq_true hf
        exact sortedByName_set ws _ wt h hprop.1 hprop.2
      · simp only [applyOp, addWorktree, hr, hf, if_false]
        have hmiss : ∀ v ∈ ws, v.name ≠ wt.name := by
          intro v hv hn
          exact hf (binarySearch_found ws wt.name h v hv hn).1
        have hnd : ((ws ++ [wt]).map (fun w => w.name)).Nodup := by
          rw [List.map_append]
          refine List.Nodup.append (nodup_names_of_sorted ws h) (by simp) ?_
          intro a ha hb
          simp only [List.map_cons, List.map_nil, List.mem_singleton] at hb
          obtain ⟨v, hv, hva⟩ := List.mem_map.mp ha
          exact hmiss v hv (by rw [hva, hb])
        exact sortedByName_sortWorktrees (ws ++ [wt]) hnd
  | del name =>
    by_cases hf : (binarySearch ws name).2 = true
    · simp only [applyOp, deleteWorktreeFromList, hf, if_true]
      exact List.Pairwise.sublist (List.eraseIdx_sublist ws (binarySearch ws name).1) h
    · simp only [applyOp, deleteWorktreeFromList, hf, if_false]
      exact h

/-- C5: starting from a worktree list strictly ascending by name, any
sequence of `AddWorktree`/`DeleteWorktree` operations (underlying commands
succeeding) leaves the list strictly ascending by name with no duplicate
names. -/
theorem worktree_ops_preserve_sorted_names (ws : List Worktree) (ops : List WtOp)
    (h : sortedByName ws) :
    sortedByName (applyOps ws ops) ∧
      ((applyOps ws ops).map (fun w => w.name)).Nodup := by
  have hs : sortedByName (applyOps ws ops) := by
    induction ops generalizing ws with
    | nil => exact h
    | cons op rest ih => exact ih (applyOp ws op) (sortedByName_applyOp ws op h)
  exact ⟨hs, nodup_names_of_sorted _ hs⟩

/-- C5 witness: the invariant theorem run from the empty (sorted) list
over a concrete insert/replace/delete sequence. -/
theorem worktree_ops_preserve_sorted_names_witness :
    sortedByName (applyOps [] sampleOps) ∧
      ((applyOps [] sampleOps).map (fun w => w.name)).Nodup :=
  worktree_ops_preserve_sorted_names [] sampleOps (List.Pairwise.nil)

end Tcr
